import Mathlib

/-!
Verification of the merkle-tree directory snapshot/diff tool
(`src/merkle_tree.py`) against its natural-language specification.

The Python source is shallowly embedded: bytes are modelled as `List Nat`
(each element a byte value), Python `str` as Lean `String` (both are
sequences of unicode scalar values), Python dicts as association lists in
insertion order with unique keys, and fallible operations as
`Option`/`Except`.  External collaborators (SHA-256 from `hashlib`, the
`pymerkle` tree hasher) are modelled per their interface: the digest
function is an arbitrary function parameter `H`, and the tree-state
computation follows the RFC 9162 / `pymerkle` scheme of domain-separated
leaf and node hashes over the ordered leaf sequence.
-/

namespace MerkleDemo

/-! ### UTF-8 encoding of relative paths

Models Python `str.encode()` (UTF-8).  A Lean `Char` is a unicode scalar
value, exactly the code points a Python `str` may hold (surrogates are not
encodable), so the standard arithmetic presentation of UTF-8 applies. -/

/-- UTF-8 encoding of a single scalar value, as byte values. -/
def utf8EncodeChar (c : Char) : List Nat :=
  if c.toNat < 0x80 then [c.toNat]
  else if c.toNat < 0x800 then
    [0xC0 + c.toNat / 64, 0x80 + c.toNat % 64]
  else if c.toNat < 0x10000 then
    [0xE0 + c.toNat / 4096, 0x80 + c.toNat / 64 % 64, 0x80 + c.toNat % 64]
  else
    [0xF0 + c.toNat / 262144, 0x80 + c.toNat / 4096 % 64,
     0x80 + c.toNat / 64 % 64, 0x80 + c.toNat % 64]

/-- UTF-8 encoding of a list of characters (byte concatenation). -/
def utf8EncodeList : List Char → List Nat
  | [] => []
  | c :: cs => utf8EncodeChar c ++ utf8EncodeList cs

/-- Models Python `s.encode()`: the UTF-8 bytes of a string. -/
def utf8Encode (s : String) : List Nat := utf8EncodeList s.data

/-- Number of bytes of a UTF-8 sequence, as determined by its first byte. -/
def utf8LenOfHead (b : Nat) : Nat :=
  if b < 0x80 then 1 else if b < 0xE0 then 2 else if b < 0xF0 then 3 else 4

theorem utf8EncodeChar_ne_nil (c : Char) : utf8EncodeChar c ≠ [] := by
  unfold utf8EncodeChar
  split_ifs <;> simp

/-- The first byte of a UTF-8 character encoding determines its length. -/
theorem utf8EncodeChar_length (c : Char) :
    (utf8EncodeChar c).length = utf8LenOfHead ((utf8EncodeChar c).headI) := by
  unfold utf8EncodeChar
  split_ifs with h1 h2 h3 <;>
    simp only [List.headI, utf8LenOfHead, List.length_cons, List.length_nil] <;>
    split_ifs <;> omega

theorem char_toNat_inj {c1 c2 : Char} (h : c1.toNat = c2.toNat) : c1 = c2 :=
  Char.eq_of_val_eq (UInt32.ext h)

/-- The UTF-8 encoding of a single character is injective. -/
theorem utf8EncodeChar_inj {c1 c2 : Char}
    (h : utf8EncodeChar c1 = utf8EncodeChar c2) : c1 = c2 := by
  apply char_toNat_inj
  unfold utf8EncodeChar at h
  split_ifs at h <;> simp_all <;> omega

/-- UTF-8 is a prefix-free code: equal concatenations starting with a full
character encoding split identically. -/
theorem utf8EncodeChar_cancel {c1 c2 : Char} {r1 r2 : List Nat}
    (h : utf8EncodeChar c1 ++ r1 = utf8EncodeChar c2 ++ r2) :
    c1 = c2 ∧ r1 = r2 := by
  rcases List.exists_cons_of_ne_nil (utf8EncodeChar_ne_nil c1) with ⟨b1, t1, e1⟩
  rcases List.exists_cons_of_ne_nil (utf8EncodeChar_ne_nil c2) with ⟨b2, t2, e2⟩
  have h' : b1 :: (t1 ++ r1) = b2 :: (t2 ++ r2) := by simpa [e1, e2] using h
  have hb : b1 = b2 := by injection h'
  have hlen : (utf8EncodeChar c1).length = (utf8EncodeChar c2).length := by
    rw [utf8EncodeChar_length c1, utf8EncodeChar_length c2, e1, e2]
    simp [List.headI, hb]
  obtain ⟨henc, hrest⟩ := List.append_inj h hlen
  exact ⟨utf8EncodeChar_inj henc, hrest⟩

/-- UTF-8 encoding of character lists is injective. -/
theorem utf8EncodeList_inj : ∀ {l1 l2 : List Char},
    utf8EncodeList l1 = utf8EncodeList l2 → l1 = l2
  | [], [], _ => rfl
  | [], c :: cs, h => by
    exact absurd h.symm (by simp [utf8EncodeList, utf8EncodeChar_ne_nil c])
  | c :: cs, [], h => by
    exact absurd h (by simp [utf8EncodeList, utf8EncodeChar_ne_nil c])
  | c1 :: cs1, c2 :: cs2, h => by
    simp only [utf8EncodeList] at h
    obtain ⟨hc, hrest⟩ := utf8EncodeChar_cancel h
    rw [hc, utf8EncodeList_inj hrest]

/-- Models Python `str.encode()` being injective. -/
theorem utf8Encode_inj {s1 s2 : String} (h : utf8Encode s1 = utf8Encode s2) :
    s1 = s2 :=
  String.ext (utf8EncodeList_inj h)

/-! ### Leaf payload encoding

Source (`build_snapshot`, line 30):
`leaf_payload = relative_path.encode() + b"::" + digest`. -/

/-- Byte value of the ASCII colon, the separator character in the payload. -/
def colonByte : Nat := 0x3A

/-- Models the leaf payload `relative_path.encode() + b"::" + digest`. -/
def leafPayload (relativePath : String) (digest : List Nat) : List Nat :=
  utf8Encode relativePath ++ [colonByte, colonByte] ++ digest

/-- Claim C2: the leaf encoding is injective over (path, digest) pairs when
digests have the fixed SHA-256 length of 32 bytes: two distinct pairs never
produce the same payload bytes. -/
theorem C2_leafPayload_injective (p1 p2 : String) (d1 d2 : List Nat)
    (hlen1 : d1.length = 32) (hlen2 : d2.length = 32)
    (hne : (p1, d1) ≠ (p2, d2)) :
    leafPayload p1 d1 ≠ leafPayload p2 d2 := by
  intro h
  unfold leafPayload at h
  rw [List.append_assoc, List.append_assoc] at h
  have hlenEnc : (utf8Encode p1).length = (utf8Encode p2).length := by
    have := congrArg List.length h
    simp only [List.length_append, List.length_cons, List.length_nil] at this
    omega
  obtain ⟨hpre, hd⟩ := List.append_inj h hlenEnc
  have hp : p1 = p2 := utf8Encode_inj hpre
  have hdd : d1 = d2 := by simpa using hd
  exact hne (by rw [hp, hdd])

theorem C2_witness :
    (List.replicate 32 7).length = 32
    ∧ leafPayload "a" (List.replicate 32 7) ≠ leafPayload "b" (List.replicate 32 7) :=
  ⟨by decide,
   C2_leafPayload_injective "a" "b" _ _ (by decide) (by decide) (by decide)⟩

/-! ### Python dictionaries and the diff engine

A Python dict is modelled as an association list in insertion order whose
keys are unique.  `m.keys()` is the key list, `k in m.keys()` is list
membership, and `m[k]` is lookup of the first (only) binding. -/

/-- Models Python dict lookup `m[k]` (resp. `m.get(k)` as an `Option`). -/
def lookupStr {α : Type} : List (String × α) → String → Option α
  | [], _ => none
  | e :: m, k => if e.1 = k then some e.2 else lookupStr m k

/-- Models `m.keys()`: the keys of a mapping in insertion order. -/
def dictKeys {α : Type} (m : List (String × α)) : List String := m.map Prod.fst

theorem lookupStr_isSome_iff {α : Type} (m : List (String × α)) (k : String) :
    (∃ d, lookupStr m k = some d) ↔ k ∈ dictKeys m := by
  induction m with
  | nil => simp [lookupStr, dictKeys]
  | cons e m ih =>
    by_cases he : e.1 = k
    · simp [lookupStr, dictKeys, he]
    · simp only [lookupStr, if_neg he]
      rw [ih]
      simp only [dictKeys, List.map_cons, List.mem_cons]
      constructor
      · exact Or.inr
      · rintro (h1 | h1)
        · exact absurd h1.symm he
        · exact h1

theorem lookupStr_eq_some_of_mem {α : Type} {m : List (String × α)} {k : String}
    (h : k ∈ dictKeys m) : ∃ d, lookupStr m k = some d :=
  (lookupStr_isSome_iff m k).mpr h

theorem mem_of_lookupStr_eq_some {α : Type} {m : List (String × α)} {k : String}
    {d : α} (h : lookupStr m k = some d) : k ∈ dictKeys m :=
  (lookupStr_isSome_iff m k).mp ⟨d, h⟩

/-- Models `diff(old, new)` from the source:
added are the keys of `new` absent from `old`, removed the keys of `old`
absent from `new`, modified the keys of `old` present in `new` whose
values differ (`old[p] != new[p]`, rendered as lookup inequality). -/
def diff (old new : List (String × List Nat)) :
    List String × List String × List String :=
  ((dictKeys new).filter (fun p => decide (p ∉ dictKeys old)),
   (dictKeys old).filter (fun p => decide (p ∉ dictKeys new)),
   (dictKeys old).filter (fun p =>
     decide (p ∈ dictKeys new) && decide (lookupStr old p ≠ lookupStr new p)))

/-- Claim C1: `diff(old, new)` returns exactly the paths present only in
`new` as added, exactly those present only in `old` as removed, and
exactly those present in both with unequal digests as modified; the three
result lists are pairwise disjoint, paths present in both with equal
digests appear in none of them, and `diff(old, old)` is all-empty. -/
theorem C1_diff_correct (old new : List (String × List Nat)) :
    (∀ p, p ∈ (diff old new).1 ↔ p ∈ dictKeys new ∧ p ∉ dictKeys old)
    ∧ (∀ p, p ∈ (diff old new).2.1 ↔ p ∈ dictKeys old ∧ p ∉ dictKeys new)
    ∧ (∀ p, p ∈ (diff old new).2.2 ↔
        ∃ d1 d2, lookupStr old p = some d1 ∧ lookupStr new p = some d2 ∧ d1 ≠ d2)
    ∧ (∀ p, ¬(p ∈ (diff old new).1 ∧ p ∈ (diff old new).2.1))
    ∧ (∀ p, ¬(p ∈ (diff old new).1 ∧ p ∈ (diff old new).2.2))
    ∧ (∀ p, ¬(p ∈ (diff old new).2.1 ∧ p ∈ (diff old new).2.2))
    ∧ (∀ p d, lookupStr old p = some d → lookupStr new p = some d →
        p ∉ (diff old new).1 ∧ p ∉ (diff old new).2.1 ∧ p ∉ (diff old new).2.2)
    ∧ diff old old = ([], [], []) := by
  have hA : ∀ p, p ∈ (diff old new).1 ↔ p ∈ dictKeys new ∧ p ∉ dictKeys old := by
    intro p; simp [diff, List.mem_filter]
  have hR : ∀ p, p ∈ (diff old new).2.1 ↔ p ∈ dictKeys old ∧ p ∉ dictKeys new := by
    intro p; simp [diff, List.mem_filter]
  have hM : ∀ p, p ∈ (diff old new).2.2 ↔
      ∃ d1 d2, lookupStr old p = some d1 ∧ lookupStr new p = some d2 ∧ d1 ≠ d2 := by
    intro p
    simp only [diff, List.mem_filter, Bool.and_eq_true, decide_eq_true_eq]
    constructor
    · rintro ⟨hpo, hpn, hne⟩
      obtain ⟨d1, hd1⟩ := lookupStr_eq_some_of_mem hpo
      obtain ⟨d2, hd2⟩ := lookupStr_eq_some_of_mem hpn
      exact ⟨d1, d2, hd1, hd2, fun hdd => hne (by rw [hd1, hd2, hdd])⟩
    · rintro ⟨d1, d2, hd1, hd2, hdd⟩
      refine ⟨mem_of_lookupStr_eq_some hd1, mem_of_lookupStr_eq_some hd2, ?_⟩
      rw [hd1, hd2]
      simpa using hdd
  refine ⟨hA, hR, hM, ?_, ?_, ?_, ?_, ?_⟩
  · rintro p ⟨h1, h2⟩
    exact ((hA p).mp h1).2 ((hR p).mp h2).1
  · rintro p ⟨h1, h2⟩
    obtain ⟨d1, d2, hd1, _, _⟩ := (hM p).mp h2
    exact ((hA p).mp h1).2 (mem_of_lookupStr_eq_some hd1)
  · rintro p ⟨h1, h2⟩
    obtain ⟨d1, d2, _, hd2, _⟩ := (hM p).mp h2
    exact ((hR p).mp h1).2 (mem_of_lookupStr_eq_some hd2)
  · intro p d hdo hdn
    refine ⟨?_, ?_, ?_⟩
    · intro h1
      exact ((hA p).mp h1).2 (mem_of_lookupStr_eq_some hdo)
    · intro h1
      exact ((hR p).mp h1).2 (mem_of_lookupStr_eq_some hdn)
    · intro h1
      obtain ⟨d1, d2, hd1, hd2, hdd⟩ := (hM p).mp h1
      rw [hdo] at hd1
      rw [hdn] at hd2
      exact hdd (by rw [← Option.some_inj.mp hd1, ← Option.some_inj.mp hd2])
  · simp [diff, List.filter_eq_nil_iff]

theorem C1_witness : diff [("a", [1])] [("a", [1])] = ([], [], []) :=
  (C1_diff_correct [("a", [1])] [("a", [1])]).2.2.2.2.2.2.2

/-! ### Hex encoding of digests

Models Python `bytes.hex()` (lowercase, two digits per byte) and
`bytes.fromhex()` (pairs of hex digits, either case; raises `ValueError`
on a non-hex digit or an odd-length tail, modelled as `none`). -/

/-- Lowercase hex digit for a value below 16 (as produced by `hex()`). -/
def hexDigitChar (n : Nat) : Char :=
  match n with
  | 0 => '0' | 1 => '1' | 2 => '2' | 3 => '3' | 4 => '4'
  | 5 => '5' | 6 => '6' | 7 => '7' | 8 => '8' | 9 => '9'
  | 10 => 'a' | 11 => 'b' | 12 => 'c' | 13 => 'd' | 14 => 'e'
  | _ => 'f'

/-- Two lowercase hex digits of one byte. -/
def byteToHexChars (b : Nat) : List Char :=
  [hexDigitChar (b / 16), hexDigitChar (b % 16)]

/-- Models `bs.hex()`: lowercase hex string of a byte sequence. -/
def bytesToHex (bs : List Nat) : String :=
  String.mk (bs.foldr (fun b acc => byteToHexChars b ++ acc) [])

/-- Value of one hex digit accepted by `bytes.fromhex` (0-9, a-f, A-F). -/
def hexDigitVal (c : Char) : Option Nat :=
  if 48 ≤ c.toNat ∧ c.toNat ≤ 57 then some (c.toNat - 48)
  else if 97 ≤ c.toNat ∧ c.toNat ≤ 102 then some (c.toNat - 87)
  else if 65 ≤ c.toNat ∧ c.toNat ≤ 70 then some (c.toNat - 55)
  else none

/-- Parses pairs of hex digits into bytes; `none` models `ValueError`. -/
def bytesFromHexChars : List Char → Option (List Nat)
  | [] => some []
  | [_] => none
  | c1 :: c2 :: rest =>
    match hexDigitVal c1, hexDigitVal c2, bytesFromHexChars rest with
    | some hi, some lo, some bs => some ((16 * hi + lo) :: bs)
    | _, _, _ => none

/-- Models `bytes.fromhex(s)`. -/
def bytesFromHex (s : String) : Option (List Nat) := bytesFromHexChars s.data

theorem hexDigitVal_hexDigitChar {n : Nat} (h : n < 16) :
    hexDigitVal (hexDigitChar n) = some n := by
  interval_cases n <;> decide

/-- Decoding inverts encoding on genuine byte sequences. -/
theorem bytesFromHex_bytesToHex (bs : List Nat) (h : ∀ b ∈ bs, b < 256) :
    bytesFromHex (bytesToHex bs) = some bs := by
  unfold bytesFromHex bytesToHex
  show bytesFromHexChars (bs.foldr (fun b acc => byteToHexChars b ++ acc) []) = some bs
  induction bs with
  | nil => rfl
  | cons b bs ih =>
    have hb : b < 256 := h b (List.mem_cons_self b bs)
    have hhi : b / 16 < 16 := by omega
    have hlo : b % 16 < 16 := by omega
    have hrec := ih (fun x hx => h x (List.mem_cons_of_mem b hx))
    simp only [List.foldr_cons]
    rw [byteToHexChars, List.cons_append, List.cons_append, List.nil_append]
    simp only [bytesFromHexChars, hexDigitVal_hexDigitChar hhi,
      hexDigitVal_hexDigitChar hlo, hrec]
    have hdm : 16 * (b / 16) + b % 16 = b := by omega
    rw [hdm]

/-! ### JSON values and the snapshot store

`json.dump`/`json.load` are modelled at the level of the JSON value
written to or parsed from the file; the textual layer is assumed to
round-trip (standard for `json`).  A parsed JSON object is an association
list with unique keys.  A snapshot file is either absent, present with
invalid JSON text (`json.load` raises `JSONDecodeError`), or present with
a JSON value. -/

inductive Json where
  | null
  | bool (b : Bool)
  | num (n : Int)
  | str (s : String)
  | arr (elements : List Json)
  | obj (members : List (String × Json))

/-- Python truthiness of a parsed JSON value (`if tree0:` in `main`). -/
def jsonTruthy : Json → Bool
  | .null => false
  | .bool b => b
  | .num n => decide (n ≠ 0)
  | .str s => decide (s ≠ "")
  | .arr elements => !elements.isEmpty
  | .obj members => !members.isEmpty

/-- State of the snapshot file presented to `load_snapshot`. -/
inductive SnapshotFile where
  | missing
  | invalidJson
  | content (j : Json)

/-- The spec's error taxonomy for loading: `NotFoundError` models the
source's `FileNotFoundError`; `CorruptSnapshotError` models the exceptions
Python raises on malformed content (`JSONDecodeError`, `ValueError` from
`bytes.fromhex`, `TypeError`/`AttributeError` on wrongly-typed values). -/
inductive LoadError where
  | notFound
  | corrupt
deriving DecidableEq

/-- Models `save_snapshot`: the JSON value written, `{"root": root,
"files": {rel: digest.hex()}}`. -/
def save_snapshot (root : String) (files_map : List (String × List Nat)) : Json :=
  Json.obj [("root", Json.str root),
            ("files", Json.obj (files_map.map fun e => (e.1, Json.str (bytesToHex e.2))))]

/-- Models the dict comprehension
`{rel: bytes.fromhex(hh) for rel, hh in files_hex.items()}`: sequential,
raising on the first non-string or non-hex value. -/
def parseFiles : List (String × Json) → Except LoadError (List (String × List Nat))
  | [] => .ok []
  | (rel, Json.str hh) :: rest =>
    match bytesFromHex hh with
    | some bs =>
      match parseFiles rest with
      | .ok fm => .ok ((rel, bs) :: fm)
      | .error e => .error e
    | none => .error .corrupt
  | _ :: _ => .error .corrupt

/-- Models `load_snapshot`: missing file raises `FileNotFoundError`;
invalid JSON raises; otherwise `root = data.get("root", "")` and
`files = data.get("files", {})` are read with those defaults and every
digest is hex-decoded.  A non-object top level or `files` value raises
(`AttributeError` on `.get`/`.items`). -/
def load_snapshot : SnapshotFile → Except LoadError (Json × List (String × List Nat))
  | .missing => .error .notFound
  | .invalidJson => .error .corrupt
  | .content (Json.obj kvs) =>
    match (lookupStr kvs "files").getD (Json.obj []) with
    | Json.obj fkvs =>
      match parseFiles fkvs with
      | .ok fm => .ok ((lookupStr kvs "root").getD (Json.str ""), fm)
      | .error e => .error e
    | _ => .error .corrupt
  | .content _ => .error .corrupt

/-! ### The orchestrator `main`

Modelled over the abstract state it consumes: the prior snapshot file and
the freshly built snapshot (root and files mapping).  Output events are
recorded rather than printed; an uncaught exception is recorded in
`failed` (the process exits non-zero). -/

structure RunResult where
  noBaselineReported : Bool
  diffReport : Option (List String × List String × List String)
  saved : Option Json
  failed : Option LoadError

/-- Models `main`: load the prior snapshot only if the file exists
(exceptions propagate), compare when the loaded root is truthy, then save
the new snapshot. -/
def mainRun (prior : SnapshotFile) (curRoot : String)
    (curFiles : List (String × List Nat)) : RunResult :=
  match prior with
  | .missing => ⟨true, none, some (save_snapshot curRoot curFiles), none⟩
  | p =>
    match load_snapshot p with
    | .error e => ⟨false, none, none, some e⟩
    | .ok (root0, files0) =>
      if jsonTruthy root0 then
        ⟨false, some (diff files0 curFiles), some (save_snapshot curRoot curFiles), none⟩
      else
        ⟨true, none, some (save_snapshot curRoot curFiles), none⟩

theorem parseFiles_save (files : List (String × List Nat))
    (h : ∀ e ∈ files, ∀ b ∈ e.2, b < 256) :
    parseFiles (files.map fun e => (e.1, Json.str (bytesToHex e.2))) = .ok files := by
  induction files with
  | nil => rfl
  | cons e files ih =>
    simp only [List.map_cons, parseFiles,
      bytesFromHex_bytesToHex e.2 (h e (List.mem_cons_self e files)),
      ih (fun x hx => h x (List.mem_cons_of_mem e hx))]

/-- Claim C3: saving a snapshot and loading it back returns the same root
string and the same path-to-digest mapping unchanged, for any non-empty
mapping (digest values being byte sequences). -/
theorem C3_save_load_roundtrip (root : String) (files : List (String × List Nat))
    (_hne : files ≠ []) (hbytes : ∀ e ∈ files, ∀ b ∈ e.2, b < 256) :
    load_snapshot (.content (save_snapshot root files)) = .ok (Json.str root, files) := by
  have hrf : ("root" : String) ≠ "files" := by decide
  simp only [save_snapshot, load_snapshot]
  simp [lookupStr, hrf, parseFiles_save files hbytes]

theorem C3_witness :
    ([("dir/ünïcode £.txt", [0, 255, 16])] : List (String × List Nat)) ≠ []
    ∧ load_snapshot (.content (save_snapshot "deadbeef" [("dir/ünïcode £.txt", [0, 255, 16])]))
      = .ok (Json.str "deadbeef", [("dir/ünïcode £.txt", [0, 255, 16])]) :=
  ⟨by decide,
   C3_save_load_roundtrip "deadbeef" [("dir/ünïcode £.txt", [0, 255, 16])]
     (by decide) (by decide)⟩

theorem parseFiles_ok_or_corrupt (l : List (String × Json)) :
    (∃ fm, parseFiles l = .ok fm) ∨ parseFiles l = .error .corrupt := by
  induction l with
  | nil => exact Or.inl ⟨[], rfl⟩
  | cons e rest ih =>
    obtain ⟨rel, v⟩ := e
    cases v with
    | str hh =>
      cases hfh : bytesFromHex hh with
      | none => exact Or.inr (by simp [parseFiles, hfh])
      | some bs =>
        rcases ih with ⟨fm, hfm⟩ | herr
        · exact Or.inl ⟨(rel, bs) :: fm, by simp [parseFiles, hfh, hfm]⟩
        · exact Or.inr (by simp [parseFiles, hfh, herr])
    | null => exact Or.inr rfl
    | bool b => exact Or.inr rfl
    | num n => exact Or.inr rfl
    | arr elements => exact Or.inr rfl
    | obj members => exact Or.inr rfl

theorem parseFiles_error_of_badHex {l : List (String × Json)} {rel hh : String}
    (hmem : (rel, Json.str hh) ∈ l) (hbad : bytesFromHex hh = none) :
    parseFiles l = .error .corrupt := by
  induction l with
  | nil => simp at hmem
  | cons e rest ih =>
    rcases List.mem_cons.mp hmem with he | he
    · rw [← he]
      simp [parseFiles, hbad]
    · obtain ⟨rel0, v0⟩ := e
      cases v0 with
      | str hh0 =>
        cases hfh : bytesFromHex hh0 with
        | none => simp [parseFiles, hfh]
        | some bs => simp [parseFiles, hfh, ih he]
      | null => rfl
      | bool b => rfl
      | num n => rfl
      | arr elements => rfl
      | obj members => rfl

theorem parseFiles_ok_keys : ∀ {l : List (String × Json)}
    {fm : List (String × List Nat)}, parseFiles l = .ok fm →
    fm.map Prod.fst = l.map Prod.fst := by
  intro l
  induction l with
  | nil => intro fm h; cases h; rfl
  | cons e rest ih =>
    intro fm h
    obtain ⟨rel, v⟩ := e
    cases v <;> simp only [parseFiles] at h <;> try exact absurd h (by simp)
    rename_i hh
    cases hfh : bytesFromHex hh with
    | none => rw [hfh] at h; exact absurd h (by simp)
    | some bs =>
      rw [hfh] at h
      cases hrest : parseFiles rest with
      | error e => rw [hrest] at h; exact absurd h (by simp)
      | ok fm0 =>
        rw [hrest] at h
        cases h
        simpa using ih hrest

/-- Claim C4: on malformed snapshot content (invalid JSON text, or a
digest value that is not valid hex) `load_snapshot` fails with the corrupt
error; a returned mapping is never partial (on success it has exactly one
entry per serialized entry, same keys); and `main` surfaces the corrupt
error instead of treating the state as "no baseline" (no diff, no save). -/
theorem C4_corrupt_rejected :
    load_snapshot .invalidJson = .error .corrupt
    ∧ (∀ kvs fkvs rel hh, lookupStr kvs "files" = some (Json.obj fkvs) →
        (rel, Json.str hh) ∈ fkvs → bytesFromHex hh = none →
        load_snapshot (.content (Json.obj kvs)) = .error .corrupt)
    ∧ (∀ kvs fkvs root fm, lookupStr kvs "files" = some (Json.obj fkvs) →
        load_snapshot (.content (Json.obj kvs)) = .ok (root, fm) →
        fm.map Prod.fst = fkvs.map Prod.fst)
    ∧ (∀ j curRoot curFiles, load_snapshot (.content j) = .error .corrupt →
        mainRun (.content j) curRoot curFiles = ⟨false, none, none, some .corrupt⟩) := by
  refine ⟨rfl, ?_, ?_, ?_⟩
  · intro kvs fkvs rel hh hfiles hmem hbad
    simp only [load_snapshot]
    rw [hfiles]
    simp only [Option.getD_some, parseFiles_error_of_badHex hmem hbad]
  · intro kvs fkvs root fm hfiles hok
    simp only [load_snapshot] at hok
    rw [hfiles] at hok
    simp only [Option.getD_some] at hok
    cases hp : parseFiles fkvs with
    | error e => rw [hp] at hok; exact absurd hok (by simp)
    | ok fm0 =>
      rw [hp] at hok
      have : fm0 = fm := by
        have := congrArg (fun x => match x with
          | Except.ok (_, f) => f
          | Except.error _ => []) hok
        simpa using this
      exact this ▸ parseFiles_ok_keys hp
  · intro j curRoot curFiles herr
    simp only [mainRun]
    rw [herr]

theorem C4_witness :
    lookupStr [("files", Json.obj [("a", Json.str "zz")])] "files"
      = some (Json.obj [("a", Json.str "zz")])
    ∧ load_snapshot (.content (Json.obj [("files", Json.obj [("a", Json.str "zz")])]))
      = .error .corrupt :=
  ⟨rfl,
   C4_corrupt_rejected.2.1 [("files", Json.obj [("a", Json.str "zz")])]
     [("a", Json.str "zz")] "a" "zz" rfl (List.mem_singleton.mpr rfl) rfl⟩

/-- Claim C8: loading a missing snapshot file fails with the not-found
error, and the orchestrator treats the missing file as a normal first run:
it reports no previous snapshot, records no failure, and still writes the
new snapshot. -/
theorem C8_missing_is_first_run :
    load_snapshot .missing = .error .notFound
    ∧ ∀ curRoot curFiles, mainRun .missing curRoot curFiles
        = ⟨true, none, some (save_snapshot curRoot curFiles), none⟩ :=
  ⟨rfl, fun _ _ => rfl⟩

theorem C8_witness :
    mainRun .missing "abc" [("a", [1])]
      = ⟨true, none, some (save_snapshot "abc" [("a", [1])]), none⟩ :=
  C8_missing_is_first_run.2 "abc" [("a", [1])]

/-- Claim C9 fails as stated: an object that lacks the `root` key is not
always loaded without error, because a present-but-malformed `files`
mapping still raises; witness `{"files": {"a": "zz"}}`. -/
theorem C9_counterexample :
    lookupStr [("files", Json.obj [("a", Json.str "zz")])] "root" = none
    ∧ load_snapshot (.content (Json.obj [("files", Json.obj [("a", Json.str "zz")])]))
      = .error .corrupt :=
  ⟨rfl, by
    simp only [load_snapshot]
    simp [lookupStr]
    rfl⟩

/-- Claim C9, amended: a missing `root` or `files` key alone never causes
an error; the root defaults to the empty string and the files mapping to
the empty mapping (so lacking both is indistinguishable from an empty
baseline), provided whatever `files` mapping is present parses. -/
theorem C9_missing_keys_default (kvs fkvs : List (String × Json))
    (fm : List (String × List Nat)) (r : Json) :
    (lookupStr kvs "root" = none → lookupStr kvs "files" = none →
      load_snapshot (.content (Json.obj kvs)) = .ok (Json.str "", []))
    ∧ (lookupStr kvs "root" = none → lookupStr kvs "files" = some (Json.obj fkvs) →
      parseFiles fkvs = .ok fm →
      load_snapshot (.content (Json.obj kvs)) = .ok (Json.str "", fm))
    ∧ (lookupStr kvs "files" = none → lookupStr kvs "root" = some r →
      load_snapshot (.content (Json.obj kvs)) = .ok (r, [])) := by
  refine ⟨?_, ?_, ?_⟩
  · intro hr hf
    simp only [load_snapshot]
    rw [hr, hf]
    rfl
  · intro hr hf hp
    simp only [load_snapshot]
    rw [hr, hf]
    simp only [Option.getD_some, Option.getD_none, hp]
  · intro hf hr
    simp only [load_snapshot]
    rw [hr, hf]
    rfl

theorem C9_witness :
    load_snapshot (.content (Json.obj [])) = .ok (Json.str "", []) :=
  (C9_missing_keys_default [] [] [] Json.null).1 rfl rfl

/-! ### The snapshot write as a file-system trace

Claim C7 concerns crash behaviour of `save_snapshot`, modelled as the
sequence of file-system operations the source performs:
`open(path, "w")` creates or truncates the destination in place, then
`json.dump` writes the serialized data.  A crash between two operations
leaves the store produced by the prefix executed so far. -/

inductive FsOp where
  | openTrunc (path : String)
  | writeAll (path : String) (data : String)
  | rename (src : String) (dst : String)

def FsOp.isRename : FsOp → Bool
  | .rename _ _ => true
  | _ => false

/-- Effect of one operation on a store mapping paths to file contents. -/
def applyOp (fs : String → Option String) : FsOp → String → Option String
  | .openTrunc p, q => if q = p then some "" else fs q
  | .writeAll p d, q => if q = p then some d else fs q
  | .rename src dst, q => if q = dst then fs src else if q = src then none else fs q

def runOps (fs : String → Option String) : List FsOp → String → Option String
  | [] => fs
  | op :: ops => runOps (applyOp fs op) ops

/-- File-system operations performed by `save_snapshot(path, ...)`:
a truncating open of the destination itself, then the write. -/
def saveSnapshotOps (path : String) (data : String) : List FsOp :=
  [.openTrunc path, .writeAll path data]

/-- Claim C7 fails as stated: the write is not atomic.  `save_snapshot`
performs no rename at all, and a crash right after the truncating open
leaves the destination with empty (truncated) content, the prior snapshot
destroyed. -/
theorem C7_counterexample :
    ((saveSnapshotOps "snapshot.json" "NEW").all fun op => !op.isRename) = true
    ∧ runOps (fun q => if q = "snapshot.json" then some "OLD" else none)
        ((saveSnapshotOps "snapshot.json" "NEW").take 1) "snapshot.json" = some "" := by
  constructor
  · rfl
  · simp [saveSnapshotOps, runOps, applyOp]

/-- Claim C7, amended: `save_snapshot` writes the serialized snapshot
directly to the destination (truncating open, then write), with no
temporary file and no rename; the completed sequence leaves the new data,
but a crash between the open and the write leaves a truncated destination
in place of the prior snapshot. -/
theorem C7_direct_write (path data : String) (fs : String → Option String) :
    runOps fs (saveSnapshotOps path data) path = some data
    ∧ runOps fs ((saveSnapshotOps path data).take 1) path = some ""
    ∧ ((saveSnapshotOps path data).all fun op => !op.isRename) = true := by
  refine ⟨?_, ?_, ?_⟩ <;> simp [runOps, applyOp, saveSnapshotOps, FsOp.isRename]

theorem C7_witness :
    runOps (fun _ => none) (saveSnapshotOps "s.json" "d") "s.json" = some "d" :=
  (C7_direct_write "s.json" "d" (fun _ => none)).1

/-! ### The Merkle tree builder and `build_snapshot`

`pymerkle`'s `InmemoryTree` implements the RFC 9162 Merkle tree hash: a
leaf is the hash of `0x00 ++ payload`, and the state over `n > 1` leaves
combines the states of the first `k` and the remaining leaves as the hash
of `0x01 ++ left ++ right`, `k` being the largest power of two below `n`.
The hash itself (SHA-256 in the source) is an explicit function parameter
`H`, since `hashlib` is an external collaborator; hypotheses on `H`
(injectivity as idealized collision resistance, 32-byte outputs) are
stated only where a claim needs them. -/

/-- Largest power of two strictly below `n` (the RFC 9162 split point),
meaningful for `n ≥ 2`. -/
def splitPoint (n : Nat) : Nat := 2 ^ Nat.log2 (n - 1)

theorem splitPoint_pos (n : Nat) : 1 ≤ splitPoint n := Nat.one_le_two_pow

theorem splitPoint_lt (n : Nat) (h : 2 ≤ n) : splitPoint n < n := by
  have h1 : 2 ^ Nat.log2 (n - 1) ≤ n - 1 := Nat.log2_self_le (by omega)
  simp only [splitPoint]
  omega

/-- Tree state over a sequence of leaf payloads (`tree.get_state()`). -/
def treeRoot (H : List Nat → List Nat) : List (List Nat) → List Nat
  | [] => H []
  | [p] => H (0 :: p)
  | p :: q :: rest =>
    H (1 :: (treeRoot H ((p :: q :: rest).take (splitPoint (rest.length + 2)))
      ++ treeRoot H ((p :: q :: rest).drop (splitPoint (rest.length + 2)))))
termination_by ps => ps.length
decreasing_by
  all_goals
    simp only [List.length_take, List.length_drop, List.length_cons]
    have h1 := splitPoint_pos (rest.length + 2)
    have h2 := splitPoint_lt (rest.length + 2) (by omega)
    omega

theorem treeRoot_length (H : List Nat → List Nat)
    (hlen : ∀ x, (H x).length = 32) :
    ∀ ps, (treeRoot H ps).length = 32 := by
  intro ps
  match ps with
  | [] => simp [treeRoot, hlen]
  | [p] => simp [treeRoot, hlen]
  | p :: q :: rest => simp [treeRoot, hlen]

/-- With an idealized (injective, fixed-output-length) hash, the tree
state determines the leaf payload sequence among sequences of one
length. -/
theorem treeRoot_inj (H : List Nat → List Nat)
    (hinj : Function.Injective H) (hlen : ∀ x, (H x).length = 32) :
    ∀ n ps1 ps2, ps1.length = n → ps2.length = n →
      treeRoot H ps1 = treeRoot H ps2 → ps1 = ps2 := by
  intro n
  induction n using Nat.strong_induction_on with
  | h n ih =>
    intro ps1 ps2 h1 h2 heq
    rcases ps1 with _ | ⟨p1, ps1⟩
    · rcases ps2 with _ | ⟨p2, ps2⟩
      · rfl
      · exfalso
        simp only [List.length_nil, List.length_cons] at h1 h2
        omega
    · rcases ps2 with _ | ⟨p2, ps2⟩
      · exfalso
        simp only [List.length_nil, List.length_cons] at h1 h2
        omega
      · rcases ps1 with _ | ⟨q1, r1⟩
        · rcases ps2 with _ | ⟨q2, r2⟩
          · simp only [treeRoot] at heq
            have hp := hinj heq
            simp only [List.cons.injEq, true_and] at hp
            rw [hp]
          · exfalso
            simp only [List.length_nil, List.length_cons] at h1 h2
            omega
        · rcases ps2 with _ | ⟨q2, r2⟩
          · exfalso
            simp only [List.length_nil, List.length_cons] at h1 h2
            omega
          · simp only [List.length_cons] at h1 h2
            have hr12 : r1.length = r2.length := by omega
            simp only [treeRoot, hr12] at heq
            have hcat := hinj heq
            simp only [List.cons.injEq, true_and] at hcat
            have hlena : (treeRoot H ((p1 :: q1 :: r1).take (splitPoint (r2.length + 2)))).length
                = (treeRoot H ((p2 :: q2 :: r2).take (splitPoint (r2.length + 2)))).length := by
              rw [treeRoot_length H hlen, treeRoot_length H hlen]
            obtain ⟨ha, hb⟩ := List.append_inj hcat hlena
            have hkpos := splitPoint_pos (r2.length + 2)
            have hklt := splitPoint_lt (r2.length + 2) (by omega)
            have htake : (p1 :: q1 :: r1) = (p2 :: q2 :: r2) := by
              have e1 : ((p1 :: q1 :: r1).take (splitPoint (r2.length + 2))).length
                  = splitPoint (r2.length + 2) := by
                simp only [List.length_take, List.length_cons]
                omega
              have e2 : ((p2 :: q2 :: r2).take (splitPoint (r2.length + 2))).length
                  = splitPoint (r2.length + 2) := by
                simp only [List.length_take, List.length_cons]
                omega
              have e3 : ((p1 :: q1 :: r1).drop (splitPoint (r2.length + 2))).length
                  = r2.length + 2 - splitPoint (r2.length + 2) := by
                simp only [List.length_drop, List.length_cons]
                omega
              have e4 : ((p2 :: q2 :: r2).drop (splitPoint (r2.length + 2))).length
                  = r2.length + 2 - splitPoint (r2.length + 2) := by
                simp only [List.length_drop, List.length_cons]
              have htk := ih (splitPoint (r2.length + 2)) (by omega) _ _ e1 e2 ha
              have hdr := ih (r2.length + 2 - splitPoint (r2.length + 2)) (by omega) _ _ e3 e4 hb
              calc p1 :: q1 :: r1
                  = (p1 :: q1 :: r1).take (splitPoint (r2.length + 2))
                    ++ (p1 :: q1 :: r1).drop (splitPoint (r2.length + 2)) :=
                    (List.take_append_drop _ _).symm
                _ = (p2 :: q2 :: r2).take (splitPoint (r2.length + 2))
                    ++ (p2 :: q2 :: r2).drop (splitPoint (r2.length + 2)) := by rw [htk, hdr]
                _ = p2 :: q2 :: r2 := List.take_append_drop _ _
            exact htake

/-! ### `build_snapshot` over an abstract directory enumeration

The file-system walk is external (spec §6): its result is an entry list of
(relative path components, file content bytes).  The source keeps files
with `".git" not in p.parts` (the scanned root itself is assumed to lie
outside any `.git` directory, so relative components decide membership),
keys the mapping by `str(p.relative_to(root))` (POSIX `/` separators) and
sorts by that string before appending leaves. -/

/-- Models the source's inclusion test `".git" not in p.parts`. -/
def includeFile (parts : List String) : Bool := !(decide (".git" ∈ parts))

/-- Models `str(p.relative_to(root))` on POSIX: components joined by `/`. -/
def relPathStr (parts : List String) : String := String.intercalate "/" parts

/-- Models `files = [p for p in root.rglob("*") if p.is_file() and ".git" not in p.parts]`
over the abstract enumeration (entries are the regular files found). -/
def scanFiles (entries : List (List String × List Nat)) :
    List (List String × List Nat) :=
  entries.filter fun e => includeFile e.1

/-- Sort comparison of `files.sort(key=lambda p: str(p.relative_to(root)))`. -/
def entryLe (a b : List String × List Nat) : Bool :=
  decide (relPathStr a.1 ≤ relPathStr b.1)

/-- Models the in-place `files.sort(...)` (comparison only sees the key). -/
def sortFiles (files : List (List String × List Nat)) :
    List (List String × List Nat) :=
  files.mergeSort entryLe

/-- Models `build_snapshot`: the appended leaf payload sequence (first
component, determining the tree) and the files mapping (second component),
both in ascending order of relative path string. -/
def build_snapshot (H : List Nat → List Nat)
    (entries : List (List String × List Nat)) :
    List (List Nat) × List (String × List Nat) :=
  ((sortFiles (scanFiles entries)).map fun e => leafPayload (relPathStr e.1) (H e.2),
   (sortFiles (scanFiles entries)).map fun e => (relPathStr e.1, H e.2))

/-- The tree state after `build_snapshot` (`tree.get_state()`). -/
def snapshotRoot (H : List Nat → List Nat)
    (entries : List (List String × List Nat)) : List Nat :=
  treeRoot H (build_snapshot H entries).1

/-- The leaf hashes of the built tree (`tree.get_leaf`, RFC 9162 leaf
hashing of each appended payload). -/
def leafHashes (H : List Nat → List Nat)
    (entries : List (List String × List Nat)) : List (List Nat) :=
  (build_snapshot H entries).1.map fun p => H (0 :: p)

theorem entryLe_trans : ∀ a b c, entryLe a b = true → entryLe b c = true →
    entryLe a c = true := by
  intro a b c
  simp only [entryLe, decide_eq_true_eq]
  exact le_trans

theorem entryLe_total : ∀ a b, (entryLe a b || entryLe b a) = true := by
  intro a b
  simp only [entryLe, Bool.or_eq_true, decide_eq_true_eq]
  exact le_total _ _

/-- Strict order on the sort key; sorted lists with pairwise-distinct keys
are sorted for it, making the sorted representative unique. -/
def keyLt (a b : List String × List Nat) : Prop :=
  relPathStr a.1 < relPathStr b.1

instance : IsAntisymm (List String × List Nat) keyLt :=
  ⟨fun _ _ h1 h2 => absurd h2 (lt_asymm h1)⟩

theorem sorted_keyLt_sortFiles {l : List (List String × List Nat)}
    (hnd : (l.map fun e => relPathStr e.1).Nodup) :
    List.Sorted keyLt (sortFiles l) := by
  have hle : List.Pairwise (fun a b => entryLe a b = true) (sortFiles l) :=
    List.sorted_mergeSort entryLe_trans entryLe_total l
  have hperm : ((sortFiles l).map fun e => relPathStr e.1).Perm
      (l.map fun e => relPathStr e.1) :=
    (List.mergeSort_perm l entryLe).map _
  have hnd2 : ((sortFiles l).map fun e => relPathStr e.1).Nodup :=
    hperm.nodup_iff.mpr hnd
  have hne : List.Pairwise (fun a b => relPathStr a.1 ≠ relPathStr b.1)
      (sortFiles l) := by
    rw [List.Nodup, List.pairwise_map] at hnd2
    exact hnd2
  refine (hle.and hne).imp ?_
  intro a b hab
  exact lt_of_le_of_ne (by simpa [entryLe] using hab.1) hab.2

/-- Any two permutations with a common (duplicate-free) key set sort to
the same list. -/
theorem sortFiles_eq_of_perm {l1 l2 : List (List String × List Nat)}
    (hperm : l1.Perm l2)
    (hnd : (l1.map fun e => relPathStr e.1).Nodup) :
    sortFiles l1 = sortFiles l2 := by
  have hnd2 : (l2.map fun e => relPathStr e.1).Nodup :=
    ((hperm.map _).nodup_iff).mp hnd
  exact List.eq_of_perm_of_sorted
    ((List.mergeSort_perm l1 entryLe).trans
      (hperm.trans (List.mergeSort_perm l2 entryLe).symm))
    (sorted_keyLt_sortFiles hnd) (sorted_keyLt_sortFiles hnd2)

/-- Claim C5: for a fixed file set, the snapshot is deterministic and
independent of enumeration order: any two enumerations (permutations) of
the same entries, scanned keys being distinct as on a file system, give
the same built snapshot and the same root; and the root is a pure function
of the leaf payload sequence. -/
theorem C5_root_deterministic (H : List Nat → List Nat)
    (es1 es2 : List (List String × List Nat))
    (hperm : es1.Perm es2)
    (hnd : ((scanFiles es1).map fun e => relPathStr e.1).Nodup) :
    build_snapshot H es1 = build_snapshot H es2
    ∧ snapshotRoot H es1 = snapshotRoot H es2
    ∧ ∀ es3 es4, (build_snapshot H es3).1 = (build_snapshot H es4).1 →
        snapshotRoot H es3 = snapshotRoot H es4 := by
  have hs : sortFiles (scanFiles es1) = sortFiles (scanFiles es2) :=
    sortFiles_eq_of_perm (hperm.filter _) hnd
  refine ⟨?_, ?_, ?_⟩
  · simp only [build_snapshot, hs]
  · simp only [snapshotRoot, build_snapshot, hs]
  · intro es3 es4 h
    simp only [snapshotRoot, h]

theorem C5_witness :
    build_snapshot (fun l => l) [(["b"], [2]), (["a"], [1])]
      = build_snapshot (fun l => l) [(["a"], [1]), (["b"], [2])] :=
  (C5_root_deterministic (fun l => l) [(["b"], [2]), (["a"], [1])]
    [(["a"], [1]), (["b"], [2])] (by decide) (by decide)).1

/-- Claim C10: the built tree and mapping agree: one leaf per mapping
entry (equal lengths), the mapping keys are exactly the relative paths of
the included files (those without a `.git` component), the keys are in
ascending sorted order, and the i-th leaf is the payload of the i-th
mapping entry. -/
theorem C10_tree_mapping_agree (H : List Nat → List Nat)
    (es : List (List String × List Nat)) :
    (build_snapshot H es).1.length = (build_snapshot H es).2.length
    ∧ ((build_snapshot H es).2.map Prod.fst).Perm
        ((es.filter fun e => includeFile e.1).map fun e => relPathStr e.1)
    ∧ List.Sorted (· ≤ ·) ((build_snapshot H es).2.map Prod.fst)
    ∧ ∀ i : Nat, (build_snapshot H es).1[i]?
        = ((build_snapshot H es).2[i]?).map
            (fun e : String × List Nat => leafPayload e.1 e.2) := by
  refine ⟨by simp [build_snapshot], ?_, ?_, ?_⟩
  · have h1 : ((build_snapshot H es).2.map Prod.fst)
        = (sortFiles (scanFiles es)).map fun e => relPathStr e.1 := by
      simp [build_snapshot]
    rw [h1]
    exact (List.mergeSort_perm (scanFiles es) entryLe).map _
  · have hle : List.Pairwise (fun a b => entryLe a b = true)
        (sortFiles (scanFiles es)) :=
      List.sorted_mergeSort entryLe_trans entryLe_total (scanFiles es)
    have h1 : ((build_snapshot H es).2.map Prod.fst)
        = (sortFiles (scanFiles es)).map fun e => relPathStr e.1 := by
      simp [build_snapshot]
    rw [h1]
    rw [List.Sorted, List.pairwise_map]
    exact hle.imp fun hab => by simpa [entryLe] using hab
  · intro i
    simp only [build_snapshot, List.getElem?_map, Option.map_map]
    rfl

theorem C10_witness :
    (build_snapshot (fun l => l) [(["a"], [1]), ([".git", "x"], [2])]).1.length
      = (build_snapshot (fun l => l) [(["a"], [1]), ([".git", "x"], [2])]).2.length :=
  (C10_tree_mapping_agree (fun l => l) [(["a"], [1]), ([".git", "x"], [2])]).1

/-- If a map `g` over entries preserves the sort key, sorting commutes
with mapping `g` (the comparison only inspects keys). -/
theorem sortFiles_map {g : List String × List Nat → List String × List Nat}
    (hg : ∀ e, relPathStr (g e).1 = relPathStr e.1)
    {l : List (List String × List Nat)}
    (hnd : (l.map fun e => relPathStr e.1).Nodup) :
    sortFiles (l.map g) = (sortFiles l).map g := by
  have hkeys : ((l.map g).map fun e => relPathStr e.1)
      = l.map fun e => relPathStr e.1 := by
    rw [List.map_map]
    exact List.map_congr_left fun e _ => hg e
  have hndg : ((l.map g).map fun e => relPathStr e.1).Nodup := by rw [hkeys]; exact hnd
  have hperm : (sortFiles (l.map g)).Perm ((sortFiles l).map g) :=
    (List.mergeSort_perm (l.map g) entryLe).trans
      (((List.mergeSort_perm l entryLe).map g).symm)
  have hs2 : List.Sorted keyLt ((sortFiles l).map g) := by
    have := sorted_keyLt_sortFiles hnd
    rw [List.Sorted, List.pairwise_map]
    refine this.imp ?_
    intro a b hab
    show relPathStr (g a).1 < relPathStr (g b).1
    rw [hg a, hg b]
    exact hab
  exact List.eq_of_perm_of_sorted hperm (sorted_keyLt_sortFiles hndg) hs2

/-- An injective digest function with 32-entry outputs, witnessing the
idealized-hash hypotheses: the input's code in the first position. -/
def injDigest (bs : List Nat) : List Nat :=
  Encodable.encode bs :: List.replicate 31 0

theorem injDigest_injective : Function.Injective injDigest := by
  intro a b h
  have hh : Encodable.encode a = Encodable.encode b := by
    simpa [injDigest] using congrArg List.headI h
  exact Encodable.encode_injective hh

theorem injDigest_length : ∀ x, (injDigest x).length = 32 := by
  intro x
  simp [injDigest]

theorem map_eq_self_of_fixed {α : Type} {f : α → α} {l : List α}
    (h : ∀ e ∈ l, f e = e) : l.map f = l := by
  induction l with
  | nil => rfl
  | cons a l ih =>
    rw [List.map_cons, h a (List.mem_cons_self a l),
      ih fun e he => h e (List.mem_cons_of_mem a he)]

/-- Replacing the content of the entry at path `t` (identity elsewhere). -/
def modEntry (t : List String) (c2 : List Nat)
    (e : List String × List Nat) : List String × List Nat :=
  if e.1 = t then (t, c2) else e

/-- Claim C6: changing the content of one file (entry at path `t`, content
`c1` changed to `c2`) changes that file's digest and the tree root, while
the leaf hash at every position holding another file is unchanged.  `H` is
idealized as injective with 32-entry outputs, standing in for SHA-256's
collision resistance (without which no such statement is provable). -/
theorem C6_one_byte_sensitivity (H : List Nat → List Nat)
    (hinj : Function.Injective H) (hlen : ∀ x, (H x).length = 32)
    (l r : List (List String × List Nat)) (t : List String) (c1 c2 : List Nat)
    (hc : c1 ≠ c2) (ht : includeFile t = true)
    (hnd : ((scanFiles (l ++ (t, c1) :: r)).map fun e => relPathStr e.1).Nodup) :
    H c1 ≠ H c2
    ∧ snapshotRoot H (l ++ (t, c1) :: r) ≠ snapshotRoot H (l ++ (t, c2) :: r)
    ∧ ∀ i : Nat, ∀ ent : String × List Nat,
        (build_snapshot H (l ++ (t, c1) :: r)).2[i]? = some ent →
        ent.1 ≠ relPathStr t →
        (leafHashes H (l ++ (t, c1) :: r))[i]?
          = (leafHashes H (l ++ (t, c2) :: r))[i]? := by
  have hdig : H c1 ≠ H c2 := fun h => hc (hinj h)
  have hf1 : scanFiles (l ++ (t, c1) :: r)
      = scanFiles l ++ (t, c1) :: scanFiles r := by
    simp [scanFiles, List.filter_append, List.filter_cons, ht]
  have hf2 : scanFiles (l ++ (t, c2) :: r)
      = scanFiles l ++ (t, c2) :: scanFiles r := by
    simp [scanFiles, List.filter_append, List.filter_cons, ht]
  have hside : ∀ e ∈ scanFiles l ++ scanFiles r, relPathStr e.1 ≠ relPathStr t := by
    rw [hf1, List.map_append, List.map_cons, List.nodup_middle] at hnd
    have hx := (List.nodup_cons.mp hnd).1
    intro e he heq
    apply hx
    rw [← heq, ← List.map_append]
    exact List.mem_map_of_mem _ he
  have hg_key : ∀ e, relPathStr (modEntry t c2 e).1 = relPathStr e.1 := by
    intro e
    by_cases he : e.1 = t
    · simp [modEntry, he]
    · simp [modEntry, he]
  have hfixL : ∀ e ∈ scanFiles l, modEntry t c2 e = e := by
    intro e he
    have hne := hside e (List.mem_append_left _ he)
    have het : e.1 ≠ t := fun h => hne (by rw [h])
    simp [modEntry, het]
  have hfixR : ∀ e ∈ scanFiles r, modEntry t c2 e = e := by
    intro e he
    have hne := hside e (List.mem_append_right _ he)
    have het : e.1 ≠ t := fun h => hne (by rw [h])
    simp [modEntry, het]
  have hmap2 : scanFiles (l ++ (t, c2) :: r)
      = (scanFiles (l ++ (t, c1) :: r)).map (modEntry t c2) := by
    rw [hf1, hf2, List.map_append, List.map_cons,
      map_eq_self_of_fixed hfixL, map_eq_self_of_fixed hfixR]
    simp [modEntry]
  have hnd1 : ((scanFiles (l ++ (t, c1) :: r)).map fun e => relPathStr e.1).Nodup := hnd
  have hsortmap : sortFiles (scanFiles (l ++ (t, c2) :: r))
      = (sortFiles (scanFiles (l ++ (t, c1) :: r))).map (modEntry t c2) := by
    rw [hmap2]
    exact sortFiles_map hg_key hnd1
  have hl2 : (build_snapshot H (l ++ (t, c2) :: r)).1
      = (sortFiles (scanFiles (l ++ (t, c1) :: r))).map
          (fun e => leafPayload (relPathStr (modEntry t c2 e).1) (H (modEntry t c2 e).2)) := by
    simp only [build_snapshot, hsortmap, List.map_map]
    rfl
  refine ⟨hdig, ?_, ?_⟩
  · intro heq
    simp only [snapshotRoot] at heq
    have hlen12 : (build_snapshot H (l ++ (t, c1) :: r)).1.length
        = (build_snapshot H (l ++ (t, c2) :: r)).1.length := by
      rw [hl2]
      simp only [build_snapshot, List.length_map]
    have hleaves := treeRoot_inj H hinj hlen
      ((build_snapshot H (l ++ (t, c1) :: r)).1.length) _ _ rfl hlen12.symm heq
    rw [hl2] at hleaves
    simp only [build_snapshot] at hleaves
    have hmem : (t, c1) ∈ sortFiles (scanFiles (l ++ (t, c1) :: r)) := by
      apply ((List.mergeSort_perm _ entryLe).mem_iff).mpr
      rw [hf1]
      exact List.mem_append_right _ (List.mem_cons_self _ _)
    have hpay := (List.map_eq_map_iff.mp hleaves) (t, c1) hmem
    have hgt : modEntry t c2 (t, c1) = (t, c2) := by simp [modEntry]
    rw [hgt] at hpay
    unfold leafPayload at hpay
    exact hdig (List.append_cancel_left hpay)
  · intro i ent hent hne
    have hget1 : (build_snapshot H (l ++ (t, c1) :: r)).2[i]?
        = ((sortFiles (scanFiles (l ++ (t, c1) :: r)))[i]?).map
            (fun e => (relPathStr e.1, H e.2)) := by
      simp only [build_snapshot, List.getElem?_map]
    rw [hget1] at hent
    cases hsi : (sortFiles (scanFiles (l ++ (t, c1) :: r)))[i]? with
    | none =>
      rw [hsi] at hent
      simp at hent
    | some e =>
      rw [hsi] at hent
      have hent2 : (relPathStr e.1, H e.2) = ent := by
        apply Option.some.inj
        simpa using hent
      rw [← hent2] at hne
      have hkey : relPathStr e.1 ≠ relPathStr t := by simpa using hne
      have hge : modEntry t c2 e = e := by
        have het : e.1 ≠ t := fun h => hkey (by rw [h])
        simp [modEntry, het]
      have hx1 : (build_snapshot H (l ++ (t, c1) :: r)).1[i]?
          = some (leafPayload (relPathStr e.1) (H e.2)) := by
        simp only [build_snapshot, List.getElem?_map]
        rw [hsi]
        rfl
      have hx2 : (build_snapshot H (l ++ (t, c2) :: r)).1[i]?
          = some (leafPayload (relPathStr (modEntry t c2 e).1) (H (modEntry t c2 e).2)) := by
        rw [hl2]
        simp only [List.getElem?_map]
        rw [hsi]
        rfl
      simp only [leafHashes, List.getElem?_map, hx1, hx2, hge]

theorem C6_witness :
    injDigest [1] ≠ injDigest [2] :=
  (C6_one_byte_sensitivity injDigest injDigest_injective injDigest_length
    [] [] ["a.txt"] [1] [2] (by decide) (by decide) (by decide)).1

end MerkleDemo
